import Mathlib

/-!
Verification of the request-construction pipeline of the
`woocommerce-rest-api` JavaScript client (files `src/index.js`, client
version 1.0.2, and `src/unnamed/part_000`, client version 1.0.4; the two
files agree on every function modelled here except `#request`, whose two
merge orders are modelled separately as `requestOptionsV1` / `requestOptionsV2`).

Modelling conventions:
- A JavaScript value that can appear in a `params` object is `JsVal`:
  either a scalar (`JsVal.prim s`, carrying the string JavaScript coerces
  it to — for a number such as `5` that is `"5"`), or an object
  (`JsVal.obj fields`).  `null` and `[]` behave in this code exactly like
  an empty object (`typeof null === 'object'` and `for..in` over them
  yields nothing), so they are represented by `JsVal.obj []`.
- A JavaScript object is an association list `JsObj` listing its
  properties in enumeration order; property assignment `o[k] = v`
  (`objSet`) updates an existing key in place and appends a new key,
  which matches JavaScript enumeration order for the non-array-index
  string keys this client deals in.
- Machine strings are Lean `String`s; where JavaScript semantics depends
  on UTF-16 code units (the default `Array.prototype.sort` comparator)
  the model converts to code-unit sequences explicitly (`strUtf16`).
-/

/-- A JavaScript value as it can appear in a request `params` object:
a scalar carrying its string coercion, or a (possibly nested) object. -/
inductive JsVal where
  | prim : String → JsVal
  | obj : List (String × JsVal) → JsVal

/-- A JavaScript object: its properties, in enumeration order. -/
abbrev JsObj := List (String × JsVal)

/-- Property read `o[k]`: the value at the (unique) key, if present. -/
def objGet (o : JsObj) (k : String) : Option JsVal :=
  match o with
  | [] => none
  | (k', v) :: rest => if k' = k then some v else objGet rest k

/-- Property assignment `o[k] = v`: update an existing key in place,
append a fresh key at the end (JavaScript enumeration order for
non-array-index keys). -/
def objSet (o : JsObj) (k : String) (v : JsVal) : JsObj :=
  match o with
  | [] => [(k, v)]
  | (k', v') :: rest => if k' = k then (k, v) :: rest else (k', v') :: objSet rest k v

/-- Sequence of property assignments: `entries` written into `o` in order.
This is both the accumulation loop of `#parseParamsObject` and the object
spread `{...o, ...entries}`. -/
def objWrite (o : JsObj) (entries : JsObj) : JsObj :=
  entries.foldl (fun acc kv => objSet acc kv.1 kv.2) o

/-- The keys of an object, in enumeration order. -/
def objKeys (o : JsObj) : List String := o.map Prod.fst

/-- Embedding of `#parseParamsObject(params, query)` (src/index.js lines
160-173): for each entry of `params`, a scalar value is written through
under its own key, and an object value is expanded exactly one level, each
inner entry written under `key ++ "[" ++ prop ++ "]"` with its value
passed through unchanged (objects nested deeper stay opaque). -/
def parseParamsObject (params : JsObj) (query : JsObj) : JsObj :=
  params.foldl
    (fun q kv =>
      match kv.2 with
      | JsVal.obj fields =>
          fields.foldl (fun q' pv => objSet q' (kv.1 ++ "[" ++ pv.1 ++ "]") pv.2) q
      | JsVal.prim s => objSet q kv.1 (JsVal.prim s))
    query

/-- Specification-level flattening: the flat entry list `#parseParamsObject`
writes, in write order.  An object value contributes its inner entries
under bracketed keys, values untouched; a scalar passes through. -/
def flattenSpec (params : JsObj) : JsObj :=
  params.flatMap
    (fun kv =>
      match kv.2 with
      | JsVal.obj fields => fields.map (fun pv => (kv.1 ++ "[" ++ pv.1 ++ "]", pv.2))
      | JsVal.prim s => [(kv.1, JsVal.prim s)])

/-- Flat objects: every value is a scalar. -/
def isFlatObj (params : JsObj) : Bool :=
  params.all (fun kv => match kv.2 with | JsVal.prim _ => true | JsVal.obj _ => false)

theorem objWrite_append (o : JsObj) (a b : JsObj) :
    objWrite o (a ++ b) = objWrite (objWrite o a) b := by
  simp [objWrite, List.foldl_append]

theorem objWrite_map_bracket (k : String) (fields : List (String × JsVal)) (q : JsObj) :
    fields.foldl (fun q' pv => objSet q' (k ++ "[" ++ pv.1 ++ "]") pv.2) q =
      objWrite q (fields.map (fun pv => (k ++ "[" ++ pv.1 ++ "]", pv.2))) := by
  induction fields generalizing q with
  | nil => rfl
  | cons pv rest ih => simpa [objWrite] using ih (objSet q (k ++ "[" ++ pv.1 ++ "]") pv.2)

/-- The mutation loop of `#parseParamsObject` writes exactly the entries of
`flattenSpec params`, in order. -/
theorem parseParamsObject_eq_objWrite (params : JsObj) (query : JsObj) :
    parseParamsObject params query = objWrite query (flattenSpec params) := by
  induction params generalizing query with
  | nil => rfl
  | cons kv rest ih =>
      obtain ⟨k, v⟩ := kv
      cases v with
      | prim s =>
          have h1 : parseParamsObject ((k, JsVal.prim s) :: rest) query =
              parseParamsObject rest (objSet query k (JsVal.prim s)) := rfl
          have h2 : flattenSpec ((k, JsVal.prim s) :: rest) =
              [(k, JsVal.prim s)] ++ flattenSpec rest := rfl
          rw [h1, h2, objWrite_append, ih]
          rfl
      | obj fields =>
          have h1 : parseParamsObject ((k, JsVal.obj fields) :: rest) query =
              parseParamsObject rest
                (fields.foldl (fun q' pv => objSet q' (k ++ "[" ++ pv.1 ++ "]") pv.2) query) := rfl
          have h2 : flattenSpec ((k, JsVal.obj fields) :: rest) =
              fields.map (fun pv => (k ++ "[" ++ pv.1 ++ "]", pv.2)) ++ flattenSpec rest := rfl
          rw [h1, h2, objWrite_append, ih, objWrite_map_bracket]


theorem objKeys_cons (k : String) (v : JsVal) (rest : JsObj) :
    objKeys ((k, v) :: rest) = k :: objKeys rest := rfl

theorem objGet_objSet (o : JsObj) (k : String) (v : JsVal) (k' : String) :
    objGet (objSet o k v) k' = if k = k' then some v else objGet o k' := by
  induction o with
  | nil => by_cases h : k = k' <;> simp [objSet, objGet, h]
  | cons kv rest ih =>
      obtain ⟨k0, v0⟩ := kv
      by_cases h0 : k0 = k
      · subst h0
        by_cases h : k0 = k' <;> simp [objSet, objGet, h]
      · by_cases h : k0 = k'
        · subst h
          have hkk : ¬ k = k0 := fun he => h0 he.symm
          simp [objSet, objGet, h0, hkk]
        · simp [objSet, objGet, h0, h, ih]

theorem objKeys_objSet_mem (o : JsObj) (k : String) (v : JsVal)
    (h : k ∈ objKeys o) : objKeys (objSet o k v) = objKeys o := by
  induction o with
  | nil => exact absurd h (List.not_mem_nil k)
  | cons kv rest ih =>
      obtain ⟨k0, v0⟩ := kv
      by_cases h0 : k0 = k
      · subst h0; simp [objSet, objKeys_cons]
      · rw [objKeys_cons] at h
        rcases List.mem_cons.mp h with h | h
        · exact absurd h.symm h0
        · simp [objSet, h0, objKeys_cons, ih h]

theorem objKeys_objSet_not_mem (o : JsObj) (k : String) (v : JsVal)
    (h : k ∉ objKeys o) : objKeys (objSet o k v) = objKeys o ++ [k] := by
  induction o with
  | nil => rfl
  | cons kv rest ih =>
      obtain ⟨k0, v0⟩ := kv
      rw [objKeys_cons] at h
      have h1 : ¬ k = k0 := by
        intro he; subst he; exact h (List.mem_cons_self _ _)
      have h2 : k ∉ objKeys rest := fun hm => h (List.mem_cons_of_mem _ hm)
      have h0 : ¬ k0 = k := fun he => h1 he.symm
      simp [objSet, h0, objKeys_cons, ih h2]

theorem mem_objKeys_objSet (o : JsObj) (k : String) (v : JsVal) (k' : String) :
    k' ∈ objKeys (objSet o k v) ↔ k' ∈ objKeys o ∨ k' = k := by
  by_cases h : k ∈ objKeys o
  · rw [objKeys_objSet_mem o k v h]
    constructor
    · exact Or.inl
    · rintro (h' | rfl) <;> [exact h'; exact h]
  · rw [objKeys_objSet_not_mem o k v h]
    simp

theorem nodup_objKeys_objSet (o : JsObj) (k : String) (v : JsVal)
    (h : (objKeys o).Nodup) : (objKeys (objSet o k v)).Nodup := by
  by_cases hm : k ∈ objKeys o
  · rwa [objKeys_objSet_mem o k v hm]
  · rw [objKeys_objSet_not_mem o k v hm]
    apply List.Nodup.append h (List.nodup_singleton k)
    intro a ha hmem
    rw [List.mem_singleton] at hmem
    subst hmem
    exact hm ha

theorem objGet_eq_none_of_not_mem (o : JsObj) (k : String)
    (h : k ∉ objKeys o) : objGet o k = none := by
  induction o with
  | nil => rfl
  | cons kv rest ih =>
      obtain ⟨k0, v0⟩ := kv
      rw [objKeys_cons] at h
      have h1 : ¬ k0 = k := by
        intro he; subst he; exact h (List.mem_cons_self _ _)
      have h2 : k ∉ objKeys rest := fun hm => h (List.mem_cons_of_mem _ hm)
      simp [objGet, h1, ih h2]

theorem objGet_objWrite_of_none (o L : JsObj) (k : String)
    (h : objGet L k = none) : objGet (objWrite o L) k = objGet o k := by
  induction L generalizing o with
  | nil => rfl
  | cons kv rest ih =>
      obtain ⟨k0, v0⟩ := kv
      have h0 : ¬ k0 = k := by
        intro he
        simp [objGet, he] at h
      have hrest : objGet rest k = none := by
        simpa [objGet, h0] using h
      have hstep : objWrite o ((k0, v0) :: rest) = objWrite (objSet o k0 v0) rest := rfl
      rw [hstep, ih _ hrest, objGet_objSet]
      simp [h0]

theorem objGet_objWrite_of_some (o L : JsObj) (k : String) (v : JsVal)
    (hnd : (objKeys L).Nodup) (h : objGet L k = some v) :
    objGet (objWrite o L) k = some v := by
  induction L generalizing o with
  | nil => simp [objGet] at h
  | cons kv rest ih =>
      obtain ⟨k0, v0⟩ := kv
      rw [objKeys_cons] at hnd
      obtain ⟨hk0, hrest⟩ := List.nodup_cons.mp hnd
      have hstep : objWrite o ((k0, v0) :: rest) = objWrite (objSet o k0 v0) rest := rfl
      by_cases h0 : k0 = k
      · subst h0
        have hv : v = v0 := by simpa [objGet] using h.symm
        subst hv
        have hnone : objGet rest k0 =
            none := objGet_eq_none_of_not_mem rest k0 hk0
        rw [hstep, objGet_objWrite_of_none _ _ _ hnone, objGet_objSet]
        simp
      · have hr : objGet rest k = some v := by simpa [objGet, h0] using h
        rw [hstep]
        exact ih _ hrest hr

theorem mem_objKeys_objWrite (o L : JsObj) (k : String) :
    k ∈ objKeys (objWrite o L) ↔ k ∈ objKeys o ∨ k ∈ objKeys L := by
  induction L generalizing o with
  | nil => simp [objWrite, objKeys]
  | cons kv rest ih =>
      obtain ⟨k0, v0⟩ := kv
      have hstep : objWrite o ((k0, v0) :: rest) = objWrite (objSet o k0 v0) rest := rfl
      rw [hstep, ih, mem_objKeys_objSet, objKeys_cons]
      simp
      tauto

theorem nodup_objKeys_objWrite (o L : JsObj)
    (h : (objKeys o).Nodup) : (objKeys (objWrite o L)).Nodup := by
  induction L generalizing o with
  | nil => simpa [objWrite]
  | cons kv rest ih =>
      obtain ⟨k0, v0⟩ := kv
      have hstep : objWrite o ((k0, v0) :: rest) = objWrite (objSet o k0 v0) rest := rfl
      rw [hstep]
      exact ih _ (nodup_objKeys_objSet o k0 v0 h)

theorem objGet_perm (L1 L2 : JsObj) (hp : L1.Perm L2)
    (h : (objKeys L1).Nodup) (k : String) : objGet L1 k = objGet L2 k := by
  induction hp with
  | nil => rfl
  | cons kv _ ih =>
      obtain ⟨k0, v0⟩ := kv
      rename_i l1 l2 _
      rw [objKeys_cons] at h
      obtain ⟨_, hrest⟩ := List.nodup_cons.mp h
      simp [objGet, ih hrest]
  | swap kv1 kv2 rest =>
      obtain ⟨ka, va⟩ := kv1
      obtain ⟨kb, vb⟩ := kv2
      rw [objKeys_cons, objKeys_cons] at h
      have hne : kb ≠ ka := by
        intro he
        subst he
        exact (List.nodup_cons.mp h).1 (List.mem_cons_self _ _)
      by_cases h1 : ka = k <;> by_cases h2 : kb = k <;>
        simp [objGet, h1, h2]
      exact absurd (h2.trans h1.symm) hne
  | trans p12 p23 ih1 ih2 =>
      rw [ih1 h]
      apply ih2
      have hperm : List.Perm (objKeys _) (objKeys _) := p12.map Prod.fst
      exact hperm.nodup_iff.mp h

/-- UTF-16 encoding of one code point: a BMP scalar is itself, a
supplementary character is a surrogate pair. -/
def charUtf16 (c : Char) : List Nat :=
  if c.toNat < 0x10000 then [c.toNat]
  else
    [0xD800 + (c.toNat - 0x10000) / 0x400, 0xDC00 + (c.toNat - 0x10000) % 0x400]

/-- The UTF-16 code-unit sequence of a string: JavaScript strings compare
by these units. -/
def strUtf16 (s : String) : List Nat := (s.data.map charUtf16).flatten

/-- Decoder for UTF-16 code-unit sequences (used to show the encoding is
injective). -/
def decodeUtf16 : List Nat → Option (List Char)
  | [] => some []
  | [u] =>
      if u < 0xD800 ∨ (0xE000 ≤ u ∧ u < 0x10000) then
        (decodeUtf16 ([] : List Nat)).map (fun cs => Char.ofNat u :: cs)
      else none
  | u :: u2 :: rest =>
      if u < 0xD800 ∨ (0xE000 ≤ u ∧ u < 0x10000) then
        (decodeUtf16 (u2 :: rest)).map (fun cs => Char.ofNat u :: cs)
      else if 0xD800 ≤ u ∧ u < 0xDC00 ∧ 0xDC00 ≤ u2 ∧ u2 < 0xE000 then
        (decodeUtf16 rest).map
          (fun cs => Char.ofNat (0x10000 + (u - 0xD800) * 0x400 + (u2 - 0xDC00)) :: cs)
      else none

theorem char_toNat_valid (c : Char) :
    c.toNat < 0xD800 ∨ (0xDFFF < c.toNat ∧ c.toNat < 0x110000) := c.valid

theorem decodeUtf16_charUtf16 (c : Char) (rest : List Nat) :
    decodeUtf16 (charUtf16 c ++ rest) = (decodeUtf16 rest).map (fun cs => c :: cs) := by
  rcases char_toNat_valid c with hv | hv
  · have hc : charUtf16 c = [c.toNat] := by
      unfold charUtf16
      rw [if_pos (by omega)]
    rw [hc]
    have hcond : c.toNat < 0xD800 ∨ (0xE000 ≤ c.toNat ∧ c.toNat < 0x10000) := Or.inl hv
    cases rest with
    | nil => simp [decodeUtf16, hcond, Char.ofNat_toNat]
    | cons u2 r2 => simp [decodeUtf16, hcond, Char.ofNat_toNat]
  · by_cases hbmp : c.toNat < 0x10000
    · have hc : charUtf16 c = [c.toNat] := by
        unfold charUtf16
        rw [if_pos hbmp]
      rw [hc]
      have hcond : c.toNat < 0xD800 ∨ (0xE000 ≤ c.toNat ∧ c.toNat < 0x10000) :=
        Or.inr (by omega)
      cases rest with
      | nil => simp [decodeUtf16, hcond, Char.ofNat_toNat]
      | cons u2 r2 => simp [decodeUtf16, hcond, Char.ofNat_toNat]
    · have hc : charUtf16 c =
          [0xD800 + (c.toNat - 0x10000) / 0x400, 0xDC00 + (c.toNat - 0x10000) % 0x400] := by
        unfold charUtf16
        rw [if_neg hbmp]
      have hlt : (c.toNat - 0x10000) / 0x400 < 0x400 :=
        Nat.div_lt_of_lt_mul (by omega)
      have hmod : (c.toNat - 0x10000) % 0x400 < 0x400 := Nat.mod_lt _ (by omega)
      have hval : 0x10000 + ((0xD800 + (c.toNat - 0x10000) / 0x400) - 0xD800) * 0x400 +
          ((0xDC00 + (c.toNat - 0x10000) % 0x400) - 0xDC00) = c.toNat := by
        have := Nat.div_add_mod (c.toNat - 0x10000) 0x400
        omega
      rw [hc]
      have hnotbmp : ¬ ((0xD800 + (c.toNat - 0x10000) / 0x400) < 0xD800 ∨
          (0xE000 ≤ (0xD800 + (c.toNat - 0x10000) / 0x400) ∧
            (0xD800 + (c.toNat - 0x10000) / 0x400) < 0x10000)) := by omega
      have hpair : 0xD800 ≤ (0xD800 + (c.toNat - 0x10000) / 0x400) ∧
          (0xD800 + (c.toNat - 0x10000) / 0x400) < 0xDC00 ∧
          0xDC00 ≤ (0xDC00 + (c.toNat - 0x10000) % 0x400) ∧
          (0xDC00 + (c.toNat - 0x10000) % 0x400) < 0xE000 := by omega
      simp only [List.cons_append, List.nil_append, decodeUtf16, if_neg hnotbmp,
        if_pos hpair, hval, Char.ofNat_toNat]
      rfl

theorem decodeUtf16_strUtf16 (cs : List Char) :
    decodeUtf16 ((cs.map charUtf16).flatten) = some cs := by
  induction cs with
  | nil => rfl
  | cons c rest ih =>
      have : ((c :: rest).map charUtf16).flatten =
          charUtf16 c ++ (rest.map charUtf16).flatten := by simp
      rw [this, decodeUtf16_charUtf16, ih]
      rfl

/-- UTF-16 encoding is injective: distinct strings have distinct code-unit
sequences. -/
theorem strUtf16_injective (s t : String) (h : strUtf16 s = strUtf16 t) : s = t := by
  have hs := decodeUtf16_strUtf16 s.data
  have ht := decodeUtf16_strUtf16 t.data
  rw [show (s.data.map charUtf16).flatten = strUtf16 s from rfl, h] at hs
  rw [show (t.data.map charUtf16).flatten = strUtf16 t from rfl] at ht
  have : s.data = t.data := by
    have := hs.symm.trans ht
    exact Option.some.inj this
  cases s
  cases t
  exact congrArg String.mk this

/-- Strict lexicographic order on code-unit sequences. -/
def unitsLt : List Nat → List Nat → Bool
  | [], [] => false
  | [], _ :: _ => true
  | _ :: _, [] => false
  | a :: as, b :: bs => if a < b then true else if a = b then unitsLt as bs else false

theorem unitsLt_asymm (a b : List Nat) (h : unitsLt a b = true) : unitsLt b a = false := by
  induction a generalizing b with
  | nil =>
      cases b with
      | nil => simp [unitsLt] at h
      | cons y ys => simp [unitsLt]
  | cons x xs ih =>
      cases b with
      | nil => simp [unitsLt] at h
      | cons y ys =>
          by_cases h1 : x < y
          · have hyx : ¬ y < x := by omega
            have hne : ¬ y = x := by omega
            simp [unitsLt, hyx, hne]
          · by_cases h2 : x = y
            · subst h2
              simp [unitsLt] at h ⊢
              exact ih _ (by simpa [unitsLt, h1] using h)
            · simp [unitsLt, h1, h2] at h

theorem unitsLt_total_eq (a b : List Nat) (h1 : unitsLt a b = false)
    (h2 : unitsLt b a = false) : a = b := by
  induction a generalizing b with
  | nil =>
      cases b with
      | nil => rfl
      | cons y ys => simp [unitsLt] at h1
  | cons x xs ih =>
      cases b with
      | nil => simp [unitsLt] at h2
      | cons y ys =>
          by_cases hxy : x < y
          · simp [unitsLt, hxy] at h1
          · by_cases hyx : y < x
            · simp [unitsLt, hyx] at h2
            · have hx : x = y := by omega
              subst hx
              simp [unitsLt, Nat.lt_irrefl] at h1 h2
              rw [ih _ h1 h2]

theorem unitsLt_trans (a b c : List Nat) (h1 : unitsLt a b = true)
    (h2 : unitsLt b c = true) : unitsLt a c = true := by
  induction a generalizing b c with
  | nil =>
      cases c with
      | nil =>
          cases b with
          | nil => simp [unitsLt] at h1
          | cons y ys => simp [unitsLt] at h2
      | cons z zs => simp [unitsLt]
  | cons x xs ih =>
      cases b with
      | nil => simp [unitsLt] at h1
      | cons y ys =>
          cases c with
          | nil => simp [unitsLt] at h2
          | cons z zs =>
              by_cases hxy : x < y
              · by_cases hyz : y < z
                · have hxz : x < z := by omega
                  simp [unitsLt, hxz]
                · have hy : y = z := by
                    by_contra hne
                    simp [unitsLt, hyz, hne] at h2
                  subst hy
                  simp [unitsLt, hxy]
              · have hx : x = y := by
                  by_contra hne
                  simp [unitsLt, hxy, hne] at h1
                subst hx
                by_cases hyz : x < z
                · simp [unitsLt, hyz]
                · have hz : x = z := by
                    by_contra hne
                    simp [unitsLt, hyz, hne] at h2
                  subst hz
                  have h1a : unitsLt xs ys = true := by
                    simpa [unitsLt, Nat.lt_irrefl] using h1
                  have h2a : unitsLt ys zs = true := by
                    simpa [unitsLt, Nat.lt_irrefl] using h2
                  simp [unitsLt, Nat.lt_irrefl]
                  exact ih _ _ h1a h2a

/-- The comparison the default `Array.prototype.sort` comparator induces on
strings: `a` sorts no later than `b` when `b < a` fails on UTF-16 units. -/
def jsStrLe (a b : String) : Bool := ! unitsLt (strUtf16 b) (strUtf16 a)

theorem jsStrLe_total (a b : String) : jsStrLe a b = true ∨ jsStrLe b a = true := by
  unfold jsStrLe
  by_cases h : unitsLt (strUtf16 b) (strUtf16 a) = true
  · right
    rw [unitsLt_asymm _ _ h]
    rfl
  · left
    simp at h
    rw [h]
    rfl

theorem jsStrLe_trans (a b c : String) (h1 : jsStrLe a b = true)
    (h2 : jsStrLe b c = true) : jsStrLe a c = true := by
  unfold jsStrLe at *
  simp only [Bool.not_eq_true'] at h1 h2 ⊢
  by_contra hac
  simp only [Bool.not_eq_false] at hac
  by_cases hbc : unitsLt (strUtf16 b) (strUtf16 c) = true
  · have hba := unitsLt_trans _ _ _ hbc hac
    rw [h1] at hba
    cases hba
  · simp only [Bool.not_eq_true] at hbc
    have heq := unitsLt_total_eq _ _ hbc h2
    rw [← heq] at hac
    rw [hac] at h1
    cases h1

theorem jsStrLe_antisymm (a b : String) (h1 : jsStrLe a b = true)
    (h2 : jsStrLe b a = true) : a = b := by
  unfold jsStrLe at h1 h2
  simp only [Bool.not_eq_true'] at h1 h2
  exact strUtf16_injective a b (unitsLt_total_eq _ _ h2 h1)

/-- Insertion of one element into a sorted list under `jsStrLe`. -/
def sortedInsert (x : String) : List String → List String
  | [] => [x]
  | y :: ys => if jsStrLe x y then x :: y :: ys else y :: sortedInsert x ys

/-- Embedding of `values.sort()`: the default comparator orders string
elements ascending by UTF-16 code-unit comparison.  The keys this code
sorts are pairwise distinct, so every comparison sort produces this list;
it is modelled as an insertion sort so that concrete runs reduce in the
kernel. -/
def jsSort (l : List String) : List String := l.foldr sortedInsert []

theorem sortedInsert_perm (x : String) (l : List String) :
    (sortedInsert x l).Perm (x :: l) := by
  induction l with
  | nil => exact List.Perm.refl _
  | cons y ys ih =>
      unfold sortedInsert
      by_cases h : jsStrLe x y = true
      · rw [if_pos h]
      · rw [if_neg h]
        exact (ih.cons y).trans (List.Perm.swap x y ys)

theorem jsSort_perm (l : List String) : (jsSort l).Perm l := by
  induction l with
  | nil => exact List.Perm.refl _
  | cons x xs ih =>
      have : jsSort (x :: xs) = sortedInsert x (jsSort xs) := rfl
      rw [this]
      exact (sortedInsert_perm x (jsSort xs)).trans (ih.cons x)

theorem mem_sortedInsert (x z : String) (l : List String) :
    z ∈ sortedInsert x l ↔ z = x ∨ z ∈ l := by
  constructor
  · intro h
    have := (sortedInsert_perm x l).mem_iff.mp h
    simpa using this
  · intro h
    apply (sortedInsert_perm x l).mem_iff.mpr
    simpa using h

theorem sortedInsert_sorted (x : String) (l : List String)
    (h : List.Pairwise (fun a b => jsStrLe a b = true) l) :
    List.Pairwise (fun a b => jsStrLe a b = true) (sortedInsert x l) := by
  induction l with
  | nil => simp [sortedInsert]
  | cons y ys ih =>
      unfold sortedInsert
      rcases List.pairwise_cons.mp h with ⟨hy, hys⟩
      by_cases hxy : jsStrLe x y = true
      · rw [if_pos hxy]
        refine List.pairwise_cons.mpr ⟨?_, h⟩
        intro b hb
        rcases List.mem_cons.mp hb with rfl | hb
        · exact hxy
        · exact jsStrLe_trans x y b hxy (hy b hb)
      · rw [if_neg hxy]
        refine List.pairwise_cons.mpr ⟨?_, ih hys⟩
        intro b hb
        rcases (mem_sortedInsert x b ys).mp hb with rfl | hb
        · rcases jsStrLe_total y b with hh | hh
          · exact hh
          · exact absurd hh hxy
        · exact hy b hb

theorem jsSort_sorted (l : List String) :
    List.Pairwise (fun a b => jsStrLe a b = true) (jsSort l) := by
  induction l with
  | nil => simp [jsSort]
  | cons x xs ih => exact sortedInsert_sorted x (jsSort xs) ih

instance : IsAntisymm String (fun a b => jsStrLe a b = true) := ⟨jsStrLe_antisymm⟩

theorem jsSort_eq_of_perm (l1 l2 : List String) (hp : l1.Perm l2) :
    jsSort l1 = jsSort l2 :=
  List.eq_of_perm_of_sorted ((jsSort_perm l1).trans (hp.trans (jsSort_perm l2).symm))
    (jsSort_sorted l1) (jsSort_sorted l2)

/-- Characters `encodeURIComponent` leaves unescaped:
`A-Z a-z 0-9 - _ . ! ~ * ' ( )`. -/
def uriUnreserved (c : Char) : Bool :=
  (65 ≤ c.toNat && c.toNat ≤ 90) || (97 ≤ c.toNat && c.toNat ≤ 122) ||
  (48 ≤ c.toNat && c.toNat ≤ 57) ||
  (c.toNat == 45) || (c.toNat == 95) || (c.toNat == 46) || (c.toNat == 33) ||
  (c.toNat == 126) || (c.toNat == 42) || (c.toNat == 39) || (c.toNat == 40) ||
  (c.toNat == 41)

/-- UTF-8 encoding of one code point, as the byte values
`encodeURIComponent` percent-escapes. -/
def utf8Bytes (c : Char) : List Nat :=
  if c.toNat < 0x80 then [c.toNat]
  else if c.toNat < 0x800 then
    [0xC0 + c.toNat / 0x40, 0x80 + c.toNat % 0x40]
  else if c.toNat < 0x10000 then
    [0xE0 + c.toNat / 0x1000, 0x80 + (c.toNat / 0x40) % 0x40, 0x80 + c.toNat % 0x40]
  else
    [0xF0 + c.toNat / 0x40000, 0x80 + (c.toNat / 0x1000) % 0x40,
      0x80 + (c.toNat / 0x40) % 0x40, 0x80 + c.toNat % 0x40]

/-- Uppercase hexadecimal digit, as `encodeURIComponent` emits. -/
def hexDigit (n : Nat) : Char :=
  if n < 10 then Char.ofNat (48 + n) else Char.ofNat (55 + n)

/-- One percent-escaped byte: `%HH`. -/
def pctByte (b : Nat) : List Char :=
  [Char.ofNat 37, hexDigit (b / 16), hexDigit (b % 16)]

/-- Encoding of one character under `encodeURIComponent`: itself when
unreserved, otherwise the percent-escapes of its UTF-8 bytes. -/
def encChar (c : Char) : List Char :=
  if uriUnreserved c then [c] else ((utf8Bytes c).map pctByte).flatten

/-- Embedding of `encodeURIComponent` on strings. -/
def encodeURIComponentStr (s : String) : String :=
  String.mk ((s.data.map encChar).flatten)

/-- Matching test: does `pat` start the list `s` (the per-position probe of
`String.prototype.replace`). -/
def listStarts (pat s : List Char) : Bool :=
  match pat, s with
  | [], _ => true
  | _ :: _, [] => false
  | p :: ps, c :: cs => p == c && listStarts ps cs

theorem listStarts_self_append (pat r : List Char) :
    listStarts pat (pat ++ r) = true := by
  induction pat with
  | nil => rfl
  | cons p ps ih => simp [listStarts, ih]

/-- Fuel-driven worker for `replAll` (structural recursion, so concrete
runs reduce in the kernel; the fuel is the length of the scanned list and
never runs out). -/
def replAllGo (pat rep : List Char) : Nat → List Char → List Char
  | _, [] => []
  | 0, s => s
  | Nat.succ f, c :: cs =>
      if 0 < pat.length ∧ listStarts pat (c :: cs) = true then
        rep ++ replAllGo pat rep f ((c :: cs).drop pat.length)
      else
        c :: replAllGo pat rep f cs

/-- Embedding of `String.prototype.replace` with a `/.../g` pattern: every
non-overlapping occurrence of `pat`, scanned left to right, becomes `rep`;
the replacement text is not rescanned. -/
def replAll (pat rep s : List Char) : List Char := replAllGo pat rep s.length s

theorem replAllGo_fuel_gen (pat rep : List Char) :
    ∀ (n f : Nat) (s : List Char), s.length ≤ n → s.length ≤ f →
      replAllGo pat rep f s = replAllGo pat rep s.length s := by
  intro n
  induction n with
  | zero =>
      intro f s hn hf
      cases s with
      | nil =>
          cases f with
          | zero => rfl
          | succ f => rfl
      | cons c cs => simp at hn
  | succ n ih =>
      intro f s hn hf
      cases s with
      | nil =>
          cases f with
          | zero => rfl
          | succ f => rfl
      | cons c cs =>
          cases f with
          | zero => simp at hf
          | succ f =>
              simp only [List.length_cons] at hn hf ⊢
              have hn1 : cs.length ≤ n := Nat.le_of_succ_le_succ hn
              have hf1 : cs.length ≤ f := Nat.le_of_succ_le_succ hf
              by_cases hcond : 0 < pat.length ∧ listStarts pat (c :: cs) = true
              · have hdl : ((c :: cs).drop pat.length).length ≤ cs.length := by
                  simp only [List.length_drop, List.length_cons]
                  omega
                rw [show replAllGo pat rep (f + 1) (c :: cs) =
                    rep ++ replAllGo pat rep f ((c :: cs).drop pat.length) from by
                  rw [replAllGo, if_pos hcond]]
                rw [show replAllGo pat rep (cs.length + 1) (c :: cs) =
                    rep ++ replAllGo pat rep cs.length ((c :: cs).drop pat.length) from by
                  rw [replAllGo, if_pos hcond]]
                rw [ih f _ (le_trans hdl hn1) (le_trans hdl hf1),
                  ih cs.length _ (le_trans hdl hn1) hdl]
              · rw [show replAllGo pat rep (f + 1) (c :: cs) =
                    c :: replAllGo pat rep f cs from by
                  rw [replAllGo, if_neg hcond]]
                rw [show replAllGo pat rep (cs.length + 1) (c :: cs) =
                    c :: replAllGo pat rep cs.length cs from by
                  rw [replAllGo, if_neg hcond]]
                rw [ih f cs hn1 hf1, ih cs.length cs hn1 (le_refl _)]

theorem replAllGo_fuel (pat rep : List Char) (f : Nat) (s : List Char)
    (hf : s.length ≤ f) :
    replAllGo pat rep f s = replAllGo pat rep s.length s :=
  replAllGo_fuel_gen pat rep s.length f s (le_refl _) hf

theorem replAll_cons_eq (pat rep : List Char) (c : Char) (cs : List Char) :
    replAll pat rep (c :: cs) =
      if 0 < pat.length ∧ listStarts pat (c :: cs) = true then
        rep ++ replAll pat rep ((c :: cs).drop pat.length)
      else
        c :: replAll pat rep cs := by
  unfold replAll
  simp only [List.length_cons]
  by_cases hcond : 0 < pat.length ∧ listStarts pat (c :: cs) = true
  · rw [if_pos hcond, replAllGo, if_pos hcond]
    have hdl : ((c :: cs).drop pat.length).length ≤ cs.length := by
      simp only [List.length_drop, List.length_cons]
      omega
    rw [replAllGo_fuel pat rep cs.length _ hdl]
  · rw [if_neg hcond, replAllGo, if_neg hcond]

theorem replAll_cons_of_not_starts (pat rep : List Char) (c : Char) (cs : List Char)
    (h : listStarts pat (c :: cs) = false) :
    replAll pat rep (c :: cs) = c :: replAll pat rep cs := by
  rw [replAll_cons_eq]
  simp [h]

theorem replAll_match (pat rep rest : List Char) (hlen : 0 < pat.length) :
    replAll pat rep (pat ++ rest) = rep ++ replAll pat rep rest := by
  cases pat with
  | nil => simp at hlen
  | cons p ps =>
      have e1 : (p :: ps) ++ rest = p :: (ps ++ rest) := rfl
      have hst : listStarts (p :: ps) (p :: (ps ++ rest)) = true := by
        rw [← e1]
        exact listStarts_self_append (p :: ps) rest
      have e2 : List.drop (p :: ps).length (p :: (ps ++ rest)) = rest := by
        rw [← e1]
        exact List.drop_left _ _
      rw [e1, replAll_cons_eq]
      rw [if_pos ⟨by simp, hst⟩]
      rw [e2]

theorem char_eq_of_toNat (c : Char) (n : Nat) (h : c.toNat = n) : c = Char.ofNat n := by
  rw [← h, Char.ofNat_toNat]

theorem hexDigit_ne_pct (n : Nat) (h : n < 16) : hexDigit n ≠ Char.ofNat 37 := by
  revert n
  decide

theorem hexDigit_inj (a : Nat) (ha : a < 16) : ∀ b, b < 16 →
    hexDigit a = hexDigit b → a = b := by
  revert a
  decide

theorem listStarts_pct_ne (tb b : Nat) (r : List Char)
    (htb : tb < 256) (hb : b < 256) (hne : b ≠ tb) :
    listStarts (pctByte tb) (pctByte b ++ r) = false := by
  have hd : tb / 16 < 16 := by omega
  have hd' : b / 16 < 16 := by omega
  have hm' : b % 16 < 16 := Nat.mod_lt _ (by omega)
  simp only [pctByte, List.cons_append, List.nil_append, listStarts, beq_self_eq_true,
    Bool.true_and, Bool.and_eq_false_iff, beq_eq_false_iff_ne, ne_eq]
  by_cases h1 : hexDigit (tb / 16) = hexDigit (b / 16)
  · have hdiv := hexDigit_inj _ hd _ hd' h1
    right
    left
    intro h2
    have hmod := hexDigit_inj _ (Nat.mod_lt _ (by omega)) _ hm' h2
    exact hne (by omega)
  · left
    exact h1

theorem listStarts_hex_head (tb m : Nat) (hm : m < 16) (r : List Char) :
    listStarts (pctByte tb) (hexDigit m :: r) = false := by
  simp only [pctByte, listStarts, Bool.and_eq_false_iff, beq_eq_false_iff_ne, ne_eq]
  left
  intro h
  exact hexDigit_ne_pct m hm h.symm

theorem replAll_pct_step (tb : Nat) (rep : List Char) (b : Nat) (r : List Char)
    (htb : tb < 256) (hb : b < 256) (hne : b ≠ tb) :
    replAll (pctByte tb) rep (pctByte b ++ r) = pctByte b ++ replAll (pctByte tb) rep r := by
  have hd' : b / 16 < 16 := by omega
  have hm' : b % 16 < 16 := Nat.mod_lt _ (by omega)
  have e0 : pctByte b ++ r =
      Char.ofNat 37 :: hexDigit (b / 16) :: hexDigit (b % 16) :: r := rfl
  rw [e0, replAll_cons_of_not_starts _ _ _ _ (by
      have h0 := listStarts_pct_ne tb b r htb hb hne
      rwa [e0] at h0),
    replAll_cons_of_not_starts _ _ _ _ (listStarts_hex_head tb _ hd' _),
    replAll_cons_of_not_starts _ _ _ _ (listStarts_hex_head tb _ hm' _)]
  rfl

theorem replAll_nonpct_step (tb : Nat) (rep : List Char) (c : Char) (r : List Char)
    (hc : c.toNat ≠ 37) :
    replAll (pctByte tb) rep (c :: r) = c :: replAll (pctByte tb) rep r := by
  apply replAll_cons_of_not_starts
  simp only [pctByte, listStarts, Bool.and_eq_false_iff, beq_eq_false_iff_ne, ne_eq]
  left
  intro h
  apply hc
  rw [← h]
  rfl

theorem char_toNat_lt (c : Char) : c.toNat < 0x110000 := by
  rcases char_toNat_valid c with h | h
  · omega
  · exact h.2

theorem utf8Bytes_lt256 (c : Char) : ∀ b ∈ utf8Bytes c, b < 256 := by
  intro b hb
  have hlt := char_toNat_lt c
  unfold utf8Bytes at hb
  split_ifs at hb with h1 h2 h3 <;> simp at hb <;> omega

theorem utf8Bytes_ascii_mem (c : Char) (t : Nat) (ht : t < 0x80)
    (hmem : t ∈ utf8Bytes c) : c.toNat = t := by
  unfold utf8Bytes at hmem
  split_ifs at hmem with h1 h2 h3 <;> simp at hmem <;> omega

theorem uriUnreserved_ne37 (c : Char) (h : uriUnreserved c = true) : c.toNat ≠ 37 := by
  unfold uriUnreserved at h
  simp at h
  omega

theorem replAll_pct_blocks (tb : Nat) (rep : List Char) (bytes : List Nat) (r : List Char)
    (htb : tb < 256) (hb : ∀ b ∈ bytes, b < 256 ∧ b ≠ tb) :
    replAll (pctByte tb) rep ((bytes.map pctByte).flatten ++ r) =
      (bytes.map pctByte).flatten ++ replAll (pctByte tb) rep r := by
  induction bytes with
  | nil => simp
  | cons b bs ih =>
      have h := hb b (List.mem_cons_self _ _)
      simp only [List.map_cons, List.flatten_cons, List.append_assoc]
      rw [replAll_pct_step _ _ _ _ htb h.1 h.2,
        ih (fun x hx => hb x (List.mem_cons_of_mem _ hx))]

theorem replAll_encChar_step (tb : Nat) (rep : List Char) (c : Char) (r : List Char)
    (htb : tb < 0x80) (hne : c.toNat ≠ tb) :
    replAll (pctByte tb) rep (encChar c ++ r) = encChar c ++ replAll (pctByte tb) rep r := by
  unfold encChar
  split_ifs with hu
  · rw [List.singleton_append]
    rw [replAll_nonpct_step _ _ _ _ (uriUnreserved_ne37 c hu)]
    rfl
  · apply replAll_pct_blocks _ _ _ _ (by omega)
    intro b hbm
    refine ⟨utf8Bytes_lt256 c b hbm, ?_⟩
    intro he
    subst he
    exact hne (utf8Bytes_ascii_mem c b htb hbm)

/-- Key encoding after the first replace pass: an encoded `[` is already
decoded back to a literal bracket. -/
def encCharNoLB (c : Char) : List Char :=
  if c.toNat = 91 then [c] else encChar c

/-- Character encoding with both brackets kept literal: what the key side
of the canonical query string uses. -/
def encCharKeepBrackets (c : Char) : List Char :=
  if c.toNat = 91 ∨ c.toNat = 93 then [c] else encChar c

theorem encChar_91 : encChar (Char.ofNat 91) = pctByte 91 := by decide

theorem encChar_93 : encChar (Char.ofNat 93) = pctByte 93 := by decide

theorem replAll_pass1 (cs : List Char) :
    replAll (pctByte 91) [Char.ofNat 91] ((cs.map encChar).flatten) =
      (cs.map encCharNoLB).flatten := by
  induction cs with
  | nil => rfl
  | cons c rest ih =>
      simp only [List.map_cons, List.flatten_cons]
      by_cases hc : c.toNat = 91
      · have hceq : c = Char.ofNat 91 := char_eq_of_toNat c 91 hc
        subst hceq
        rw [encChar_91, replAll_match _ _ _ (by simp [pctByte]), ih]
        rfl
      · rw [replAll_encChar_step 91 _ c _ (by omega) hc, ih]
        simp [encCharNoLB, hc]

theorem replAll_pass2 (cs : List Char) :
    replAll (pctByte 93) [Char.ofNat 93] ((cs.map encCharNoLB).flatten) =
      (cs.map encCharKeepBrackets).flatten := by
  induction cs with
  | nil => rfl
  | cons c rest ih =>
      simp only [List.map_cons, List.flatten_cons]
      by_cases hc93 : c.toNat = 93
      · have hceq : c = Char.ofNat 93 := char_eq_of_toNat c 93 hc93
        subst hceq
        rw [show encCharNoLB (Char.ofNat 93) = pctByte 93 from by decide]
        rw [replAll_match _ _ _ (by simp [pctByte]), ih]
        rfl
      · by_cases hc91 : c.toNat = 91
        · rw [show encCharNoLB c = [c] from by simp [encCharNoLB, hc91]]
          rw [List.singleton_append, replAll_nonpct_step _ _ _ _ (by omega), ih]
          simp [encCharKeepBrackets, hc91]
        · rw [show encCharNoLB c = encChar c from by simp [encCharNoLB, hc91]]
          rw [replAll_encChar_step 93 _ c _ (by omega) hc93, ih]
          simp [encCharKeepBrackets, hc91, hc93]

/-- Embedding of the key serialization of `#normalizeQueryString`:
`encodeURIComponent(key).replace(/%5B/g, '[').replace(/%5D/g, ']')`. -/
def encodeKeyJs (k : String) : String :=
  String.mk (replAll (pctByte 93) [Char.ofNat 93]
    (replAll (pctByte 91) [Char.ofNat 91] ((k.data.map encChar).flatten)))

/-- The two replace passes decode exactly the escapes of the bracket
characters in the key, and nothing else. -/
theorem encodeKeyJs_keepBrackets (k : String) :
    encodeKeyJs k = String.mk ((k.data.map encCharKeepBrackets).flatten) := by
  unfold encodeKeyJs
  rw [replAll_pass1, replAll_pass2]

/-- Value of a hexadecimal digit character, if any. -/
def hexVal (c : Char) : Option Nat :=
  if 48 ≤ c.toNat ∧ c.toNat ≤ 57 then some (c.toNat - 48)
  else if 65 ≤ c.toNat ∧ c.toNat ≤ 70 then some (c.toNat - 55)
  else if 97 ≤ c.toNat ∧ c.toNat ≤ 102 then some (c.toNat - 103 + 10)
  else none

/-- Modelled from the dependency url-parse/querystringify (an external
collaborator of `#normalizeQueryString`): percent-decoding of a query
component, with `+` read as a space; an invalid escape makes the whole
component undecodable.  Decoding is byte-wise here (no multi-byte UTF-8
recombination), which is adequate for the ASCII query strings this
development evaluates. -/
def pctDecode : List Char → Option (List Char)
  | [] => some []
  | c :: rest =>
      if c.toNat = 37 then
        match rest with
        | h1 :: h2 :: rest2 =>
            match hexVal h1, hexVal h2 with
            | some a, some b => (pctDecode rest2).map (fun l => Char.ofNat (16 * a + b) :: l)
            | _, _ => none
        | _ => none
      else if c.toNat = 43 then (pctDecode rest).map (fun l => Char.ofNat 32 :: l)
      else (pctDecode rest).map (fun l => c :: l)

/-- One `&`-separated piece of a query string, folded into the query
object: a piece with a nonempty, decodable key and decodable value becomes
a property, the first occurrence of a key winning. -/
def queryPairStep (acc : JsObj) (part : List Char) : JsObj :=
  let kchars := part.takeWhile (fun c => c.toNat != 61)
  let vchars := part.drop (kchars.length + 1)
  if kchars.length = 0 then acc
  else
    match pctDecode kchars, pctDecode vchars with
    | some kd, some vd =>
        if (objGet acc (String.mk kd)).isSome then acc
        else acc ++ [(String.mk kd, JsVal.prim (String.mk vd))]
    | _, _ => acc

/-- Modelled from the dependency url-parse with query parsing enabled
(`new Url(url, null, true).query`, an external collaborator of
`#normalizeQueryString`): the substring after the first `?` (and before
any `#`) is split on `&` and folded into an object. -/
def parseUrlQuery (url : String) : JsObj :=
  let qpart := ((url.data.dropWhile (fun c => c.toNat != 63)).drop 1).takeWhile
    (fun c => c.toNat != 35)
  (qpart.splitOn (Char.ofNat 38)).foldl queryPairStep []

theorem not_mem_of_objGet_isSome_eq_false (o : JsObj) (k : String)
    (h : (objGet o k).isSome = false) : k ∉ objKeys o := by
  intro hm
  induction o with
  | nil => exact absurd hm (List.not_mem_nil k)
  | cons kv rest ih =>
      obtain ⟨k0, v0⟩ := kv
      rw [objKeys_cons] at hm
      by_cases h0 : k0 = k
      · simp [objGet, h0] at h
      · rcases List.mem_cons.mp hm with hh | hh
        · exact h0 hh.symm
        · exact ih (by simpa [objGet, h0] using h) hh

theorem queryPairStep_nodup (acc : JsObj) (part : List Char)
    (base : (objKeys acc).Nodup) : (objKeys (queryPairStep acc part)).Nodup := by
  unfold queryPairStep
  by_cases hk : (part.takeWhile (fun c => c.toNat != 61)).length = 0
  · simpa [hk] using base
  · simp only [hk, ite_false]
    cases h1 : pctDecode (part.takeWhile (fun c => c.toNat != 61)) with
    | none => exact base
    | some kd =>
        cases h2 : pctDecode (part.drop
            ((part.takeWhile (fun c => c.toNat != 61)).length + 1)) with
        | none => exact base
        | some vd =>
            by_cases h3 : (objGet acc (String.mk kd)).isSome
            · simpa [h3] using base
            · have hnm : String.mk kd ∉ objKeys acc :=
                not_mem_of_objGet_isSome_eq_false acc _ (by simpa using h3)
              have hkeys : objKeys (acc ++ [(String.mk kd, JsVal.prim (String.mk vd))]) =
                  objKeys acc ++ [String.mk kd] := by
                simp [objKeys]
              change (objKeys (if (objGet acc (String.mk kd)).isSome = true then acc
                else acc ++ [(String.mk kd, JsVal.prim (String.mk vd))])).Nodup
              rw [if_neg h3, hkeys]
              refine List.Nodup.append base (List.nodup_singleton _) ?_
              intro a ha hmem
              rw [List.mem_singleton] at hmem
              subst hmem
              exact hnm ha

theorem parseUrlQuery_nodup (url : String) : (objKeys (parseUrlQuery url)).Nodup := by
  have hgen : ∀ (parts : List (List Char)) (acc : JsObj), (objKeys acc).Nodup →
      (objKeys (parts.foldl queryPairStep acc)).Nodup := by
    intro parts
    induction parts with
    | nil => intro acc base; simpa using base
    | cons part rest ih =>
        intro acc base
        simp only [List.foldl_cons]
        exact ih _ (queryPairStep_nodup acc part base)
  exact hgen _ [] List.nodup_nil

/-- String coercion of a JavaScript value, as `encodeURIComponent` applies
it to its argument: a scalar is its own string, a plain object coerces to
`[object Object]`. -/
def jsValToString (v : JsVal) : String :=
  match v with
  | JsVal.prim s => s
  | JsVal.obj _ => "[object Object]"

/-- The read `query[values[key]]` as serialized: a missing property is
`undefined`, whose string coercion is `undefined`. -/
def queryValToString (o : JsObj) (k : String) : String :=
  match objGet o k with
  | some v => jsValToString v
  | none => "undefined"

/-- The merged query object built inside `#normalizeQueryString`: the
URL's parsed query mutated by `#parseParamsObject(params, query)`. -/
def mergedQuery (url : String) (params : JsObj) : JsObj :=
  parseParamsObject params (parseUrlQuery url)

/-- The key array `values` of `#normalizeQueryString` after `values.sort()`. -/
def sortedQueryKeys (url : String) (params : JsObj) : List String :=
  jsSort (objKeys (mergedQuery url params))

/-- The `queryString` accumulation loop of `#normalizeQueryString`:
ampersand-separated `encodedKey=encodedValue` pairs in sorted key order,
bracket escapes decoded in keys only. -/
def queryStringOf (url : String) (params : JsObj) : String :=
  (sortedQueryKeys url params).foldl
    (fun acc k =>
      (if acc.length ≠ 0 then acc ++ "&" else acc) ++
        encodeKeyJs k ++ "=" ++
        encodeURIComponentStr (queryValToString (mergedQuery url params) k))
    ""

/-- Embedding of `#normalizeQueryString(url, params)` (src/index.js lines
116-140): return the URL untouched when it has no query string and the
params object has no keys; otherwise rebuild `basePart?sortedPairs`. -/
def normalizeQueryString (url : String) (params : JsObj) : String :=
  if url.data.all (fun c => c.toNat != 63) && params.length == 0 then url
  else
    String.mk (url.data.takeWhile (fun c => c.toNat != 63)) ++ "?" ++
      queryStringOf url params

/-- Embedding of `String.prototype.replace` with a plain-string pattern:
only the first occurrence, scanned left to right, is replaced. -/
def replFirst (pat rep : List Char) (s : List Char) : List Char :=
  match s with
  | [] => if listStarts pat [] = true then rep else []
  | c :: cs =>
      if listStarts pat (c :: cs) = true then rep ++ (c :: cs).drop pat.length
      else c :: replFirst pat rep cs

/-- ASCII lowercasing (url-parse lowercases hostnames; the hostnames this
client assembles are ASCII). -/
def lowerChar (c : Char) : Char :=
  if 65 ≤ c.toNat ∧ c.toNat ≤ 90 then Char.ofNat (c.toNat + 32) else c

/-- The list after the first `//`, or empty if there is none. -/
def afterDoubleSlash : List Char → List Char
  | [] => []
  | c :: cs =>
      if listStarts [Char.ofNat 47, Char.ofNat 47] (c :: cs) = true then cs.drop 1
      else afterDoubleSlash cs

/-- Modelled from the dependency url-parse (an external collaborator of
`#getUrl`): the hostname of a URL — the authority after the first `//`,
cut at the first `/`, `?` or `#`, with a `:port` suffix removed,
lowercased.  Userinfo does not occur in the URLs this client assembles
and is not modelled. -/
def urlHostname (u : String) : String :=
  let auth := (afterDoubleSlash u.data).takeWhile
    (fun c => (c.toNat != 47) && (c.toNat != 63) && (c.toNat != 35))
  String.mk ((auth.takeWhile (fun c => c.toNat != 58)).map lowerChar)

/-- The check `this.url.slice(-1) === '/'`: the last UTF-16 unit of the
configured base URL is a slash. -/
def jsEndsWithSlash (u : String) : Bool := u.data.getLast? == some (Char.ofNat 47)

/-- The per-request transport override bag (`axiosConfig`): a `some` field
is a key present on the configured override object; its value may itself
be an explicit `undefined` (the inner `none`).  Keys beyond the ones the
dispatcher itself sets are passed through to the transport and are not
modelled. -/
structure AxiosOverride where
  url : Option String := none
  method : Option String := none
  responseEncoding : Option String := none
  timeout : Option (Option String) := none
  responseType : Option String := none
  headers : Option (List (String × String)) := none
  params : Option (Option JsObj) := none
  auth : Option (Option (String × String)) := none
  data : Option (Option String) := none

/-- The client state `#setDefaultsOptions` stores on the instance
(src/index.js lines 264-276). -/
structure ClientConfig where
  url : String
  wpAPIPrefix : String
  version : String
  isHttps : Bool
  consumerKey : String
  consumerSecret : String
  encoding : String
  queryStringAuth : Bool
  port : String
  timeout : Option String
  axiosConfig : AxiosOverride
  classVersion : String

/-- Embedding of `#getUrl(endpoint, params)` (src/index.js lines 94-106):
join base, prefix, version and endpoint; splice the configured port after
the hostname by a first-occurrence string replace; canonicalize the query
string unless the scheme is HTTPS. -/
def getUrl (cfg : ClientConfig) (endpoint : String) (params : JsObj) : String :=
  let api := cfg.wpAPIPrefix ++ "/"
  let url0 := if jsEndsWithSlash cfg.url then cfg.url else cfg.url ++ "/"
  let url1 := url0 ++ api ++ cfg.version ++ "/" ++ endpoint
  let url2 :=
    if cfg.port ≠ "" then
      String.mk (replFirst (urlHostname url1).data
        ((urlHostname url1) ++ ":" ++ cfg.port).data url1.data)
    else url1
  if cfg.isHttps = false then normalizeQueryString url2 params else url2

/-- The options object the constructor accepts: an absent key is `none`.
Options are modelled at the types the client reads them at. -/
structure RawOptions where
  url : Option String := none
  consumerKey : Option String := none
  consumerSecret : Option String := none
  wpAPIPrefix : Option String := none
  version : Option String := none
  encoding : Option String := none
  queryStringAuth : Option Bool := none
  port : Option String := none
  timeout : Option String := none
  axiosConfig : Option AxiosOverride := none

/-- The `OptionsException` value the constructor throws. -/
structure OptionsException where
  name : String
  message : String
deriving DecidableEq

/-- JavaScript truthiness of a possibly-absent string option: absent and
the empty string are falsy. -/
def jsTruthy (o : Option String) : Bool :=
  match o with
  | none => false
  | some s => s.length != 0

/-- The defaulting idiom `opt.x || d` for string options. -/
def jsOrStr (o : Option String) (d : String) : String :=
  match o with
  | none => d
  | some s => if s.length = 0 then d else s

/-- The scheme test `/^https/i.test(url)`. -/
def isHttpsOf (u : String) : Bool :=
  listStarts
    [Char.ofNat 104, Char.ofNat 116, Char.ofNat 116, Char.ofNat 112, Char.ofNat 115]
    (u.data.map lowerChar)

/-- Embedding of `#setDefaultsOptions(opt)` (src/index.js lines 264-276). -/
def setDefaultsOptions (classVersion : String) (opt : RawOptions) : ClientConfig :=
  { url := opt.url.getD ""
    wpAPIPrefix := jsOrStr opt.wpAPIPrefix "wp-json"
    version := jsOrStr opt.version "wc/v3"
    isHttps := isHttpsOf (opt.url.getD "")
    consumerKey := opt.consumerKey.getD ""
    consumerSecret := opt.consumerSecret.getD ""
    encoding := jsOrStr opt.encoding "utf8"
    queryStringAuth := opt.queryStringAuth.getD false
    port := jsOrStr opt.port ""
    timeout := opt.timeout
    axiosConfig := opt.axiosConfig.getD {}
    classVersion := classVersion }

/-- Embedding of the constructor (src/index.js lines 32-40): validate the
three required options in order, then store defaults.  The stored class
version differs between the two source files, so it is a parameter. -/
def construct (classVersion : String) (o : Option RawOptions) :
    Except OptionsException ClientConfig :=
  let options := o.getD {}
  if jsTruthy options.url = false then
    Except.error { name := "Options Error", message := "url is required" }
  else if jsTruthy options.consumerKey = false then
    Except.error { name := "Options Error", message := "consumerKey is required" }
  else if jsTruthy options.consumerSecret = false then
    Except.error { name := "Options Error", message := "consumerSecret is required" }
  else Except.ok (setDefaultsOptions classVersion options)

/-- The transport options record the dispatcher assembles.  A `none` in
`params`, `auth` or `data` is a key the dispatcher never set. -/
structure AxiosOptions where
  url : String
  method : String
  responseEncoding : String
  timeout : Option String
  responseType : String
  headers : List (String × String)
  params : Option JsObj
  auth : Option (String × String)
  data : Option String

/-- The options literal and authentication branching of `#request`
(identical in both source files): everything before the axiosConfig
merge.  `authorize` stands for the external oauth-1.0a collaborator
reached through `#getOAuth()` — per request it is a function of url and
method (nonce and timestamp are baked into it), and its result becomes
the query-parameter set of the non-HTTPS branch.  `data` carries the
JSON-serialized request body when one is present. -/
def computedOptions (cfg : ClientConfig) (authorize : String → String → JsObj)
    (method endpoint : String) (data : Option String) (params : JsObj) : AxiosOptions :=
  let url := getUrl cfg endpoint params
  let baseHeaders :=
    [("User-Agent", "WooCommerce REST API - JS Client/" ++ cfg.classVersion),
      ("Accept", "application/json")]
  let opts : AxiosOptions :=
    { url := url
      method := method
      responseEncoding := cfg.encoding
      timeout := cfg.timeout
      responseType := "json"
      headers := baseHeaders
      params := none
      auth := none
      data := none }
  let opts :=
    if cfg.isHttps then
      if cfg.queryStringAuth then
        { opts with
            params := some (objWrite
              [("consumer_key", JsVal.prim cfg.consumerKey),
                ("consumer_secret", JsVal.prim cfg.consumerSecret)] params) }
      else
        { opts with
            auth := some (cfg.consumerKey, cfg.consumerSecret)
            params := some (objWrite [] params) }
    else
      { opts with params := some (authorize url method) }
  match data with
  | some d =>
      { opts with
          headers := baseHeaders ++ [("Content-Type", "application/json;charset=utf-8")]
          data := some d }
  | none => opts

/-- The merge of src/index.js v1.0.2 — spread the computed options first,
the configured overrides second: every key present on the override wins. -/
def mergeOverrideLast (opts : AxiosOptions) (ov : AxiosOverride) : AxiosOptions :=
  { url := ov.url.getD opts.url
    method := ov.method.getD opts.method
    responseEncoding := ov.responseEncoding.getD opts.responseEncoding
    timeout := ov.timeout.getD opts.timeout
    responseType := ov.responseType.getD opts.responseType
    headers := ov.headers.getD opts.headers
    params := ov.params.getD opts.params
    auth := ov.auth.getD opts.auth
    data := ov.data.getD opts.data }

/-- The merge of src/unnamed/part_000 v1.0.4 — spread the configured
overrides first, the computed options second: the computed options always
carry the keys url, method, responseEncoding, timeout, responseType,
headers and params, so those always win; the override can only supply
auth or data when the computed options left that key unset. -/
def mergeOverrideFirst (ov : AxiosOverride) (opts : AxiosOptions) : AxiosOptions :=
  { url := opts.url
    method := opts.method
    responseEncoding := opts.responseEncoding
    timeout := opts.timeout
    responseType := opts.responseType
    headers := opts.headers
    params := opts.params
    auth :=
      match opts.auth with
      | some a => some a
      | none => ov.auth.getD none
    data :=
      match opts.data with
      | some d => some d
      | none => ov.data.getD none }

/-- Embedding of `#request` of src/index.js (v1.0.2): computed options,
then the axiosConfig override merge with overrides last. -/
def requestOptionsV1 (cfg : ClientConfig) (authorize : String → String → JsObj)
    (method endpoint : String) (data : Option String) (params : JsObj) : AxiosOptions :=
  mergeOverrideLast (computedOptions cfg authorize method endpoint data params)
    cfg.axiosConfig

/-- Embedding of `#request` of src/unnamed/part_000 (v1.0.4): computed
options, then the axiosConfig merge with overrides first. -/
def requestOptionsV2 (cfg : ClientConfig) (authorize : String → String → JsObj)
    (method endpoint : String) (data : Option String) (params : JsObj) : AxiosOptions :=
  mergeOverrideFirst cfg.axiosConfig (computedOptions cfg authorize method endpoint data params)

/-- The empty override bag: the default `axiosConfig`. -/
def emptyOverride : AxiosOverride := {}

theorem stringMk_data (s : String) : String.mk s.data = s := rfl

theorem objSet_eq_append_of_not_mem (o : JsObj) (k : String) (v : JsVal)
    (h : k ∉ objKeys o) : objSet o k v = o ++ [(k, v)] := by
  induction o with
  | nil => rfl
  | cons kv rest ih =>
      obtain ⟨k0, v0⟩ := kv
      rw [objKeys_cons] at h
      have h1 : ¬ k = k0 := by
        intro he; subst he; exact h (List.mem_cons_self _ _)
      have h2 : k ∉ objKeys rest := fun hm => h (List.mem_cons_of_mem _ hm)
      have h0 : ¬ k0 = k := fun he => h1 he.symm
      simp [objSet, h0, ih h2]

theorem objWrite_fresh (L : JsObj) : ∀ (o : JsObj),
    (∀ k ∈ objKeys L, k ∉ objKeys o) → (objKeys L).Nodup →
    objWrite o L = o ++ L := by
  induction L with
  | nil => intro o _ _; simp [objWrite]
  | cons kv rest ih =>
      intro o hdisj hnd
      obtain ⟨k, v⟩ := kv
      rw [objKeys_cons] at hdisj hnd
      obtain ⟨hk, hnd'⟩ := List.nodup_cons.mp hnd
      have hstep : objWrite o ((k, v) :: rest) = objWrite (objSet o k v) rest := rfl
      rw [hstep, objSet_eq_append_of_not_mem o k v (hdisj k (List.mem_cons_self _ _))]
      rw [ih (o ++ [(k, v)]) ?_ hnd']
      · simp
      · intro k' hk'
        have hk'o : k' ∉ objKeys o := hdisj k' (List.mem_cons_of_mem _ hk')
        have hk'k : k' ≠ k := fun he => hk (he ▸ hk')
        intro hmem
        have : objKeys (o ++ [(k, v)]) = objKeys o ++ [k] := by simp [objKeys]
        rw [this] at hmem
        rcases List.mem_append.mp hmem with hmem | hmem
        · exact hk'o hmem
        · exact hk'k (List.mem_singleton.mp hmem)

/-- Writing a duplicate-free entry list into the empty object reproduces
the list. -/
theorem objWrite_nil (L : JsObj) (hnd : (objKeys L).Nodup) :
    objWrite [] L = L := by
  rw [objWrite_fresh L [] (by intro k _; exact List.not_mem_nil k) hnd]
  rfl

theorem flattenSpec_of_flat (P : JsObj) (h : isFlatObj P = true) : flattenSpec P = P := by
  induction P with
  | nil => rfl
  | cons kv rest ih =>
      obtain ⟨k, v⟩ := kv
      cases v with
      | prim s =>
          have hrest : isFlatObj rest = true := by
            have h2 := h
            unfold isFlatObj at h2 ⊢
            rw [List.all_cons, Bool.and_eq_true] at h2
            exact h2.2
          show (k, JsVal.prim s) :: flattenSpec rest = (k, JsVal.prim s) :: rest
          rw [ih hrest]
      | obj fields => simp [isFlatObj] at h

theorem flattenSpec_perm (P1 P2 : JsObj) (hp : P1.Perm P2) :
    (flattenSpec P1).Perm (flattenSpec P2) := by
  unfold flattenSpec
  exact hp.flatMap_right _

/-- Claim C4: the parameter flattener expands exactly one nesting level
and no more — when the bracket-expanded keys are duplicate-free the
mutation loop reproduces the one-level expansion `flattenSpec` exactly;
flattening an already-flat mapping is the identity, hence idempotent; the
mapping with entry a mapped to the object with entry b mapped to 1
flattens to the single entry with key a[b]; and a value nested two levels
deep is passed through as an opaque value. -/
theorem c4_flattener_one_level :
    (∀ P : JsObj, (objKeys (flattenSpec P)).Nodup →
      parseParamsObject P [] = flattenSpec P) ∧
    (∀ P : JsObj, isFlatObj P = true → (objKeys P).Nodup →
      parseParamsObject P [] = P ∧
      parseParamsObject (parseParamsObject P []) [] = parseParamsObject P []) ∧
    parseParamsObject [("a", JsVal.obj [("b", JsVal.prim "1")])] [] =
      [("a[b]", JsVal.prim "1")] ∧
    (∀ (k p : String) (g : List (String × JsVal)),
      flattenSpec [(k, JsVal.obj [(p, JsVal.obj g)])] =
        [(k ++ "[" ++ p ++ "]", JsVal.obj g)]) := by
  refine ⟨?_, ?_, ?_, ?_⟩
  · intro P h
    rw [parseParamsObject_eq_objWrite]
    exact objWrite_nil _ h
  · intro P hf hnd
    have hfs := flattenSpec_of_flat P hf
    have h1 : parseParamsObject P [] = P := by
      rw [parseParamsObject_eq_objWrite, hfs]
      exact objWrite_nil _ hnd
    refine ⟨h1, ?_⟩
    rw [h1]
    exact h1
  · rfl
  · intro k p g
    rfl

/-- Witness for C4 at a concrete flat mapping. -/
theorem c4_flattener_one_level_witness :
    parseParamsObject [("x", JsVal.prim "1"), ("y", JsVal.prim "2")] [] =
      [("x", JsVal.prim "1"), ("y", JsVal.prim "2")] ∧
    parseParamsObject
        (parseParamsObject [("x", JsVal.prim "1"), ("y", JsVal.prim "2")] []) [] =
      parseParamsObject [("x", JsVal.prim "1"), ("y", JsVal.prim "2")] [] :=
  c4_flattener_one_level.2.1 [("x", JsVal.prim "1"), ("y", JsVal.prim "2")] rfl
    (by decide)

/-- Claim C1 as frozen fails on the code: two parameter mappings with the
same set of key/value pairs can canonicalize differently when a literal
bracketed key collides with a bracket-expanded nested key — insertion
order then decides which value survives. -/
theorem c1_counterexample :
    List.Perm
      [("a[b]", JsVal.prim "1"), ("a", JsVal.obj [("b", JsVal.prim "2")])]
      [("a", JsVal.obj [("b", JsVal.prim "2")]), ("a[b]", JsVal.prim "1")] ∧
    normalizeQueryString "http://shop.test/x"
        [("a[b]", JsVal.prim "1"), ("a", JsVal.obj [("b", JsVal.prim "2")])] ≠
      normalizeQueryString "http://shop.test/x"
        [("a", JsVal.obj [("b", JsVal.prim "2")]), ("a[b]", JsVal.prim "1")] :=
  ⟨List.Perm.swap _ _ _, by decide⟩

/-- Claim C1 (amended): for every URL and any two parameter mappings with
the same set of key/value pairs whose bracket-flattened key list is
duplicate-free, canonicalization yields byte-identical output; and the
emitted pairs always appear in ascending UTF-16 code-unit order of their
raw keys (the canonicalizer serializes exactly the keys
`sortedQueryKeys`, in that order). -/
theorem c1_canonicalizer_order_independent (url : String) (P1 P2 : JsObj)
    (hp : P1.Perm P2) (hnd : (objKeys (flattenSpec P1)).Nodup) :
    normalizeQueryString url P1 = normalizeQueryString url P2 ∧
    List.Pairwise (fun a b => jsStrLe a b = true) (sortedQueryKeys url P1) := by
  have hfp : (flattenSpec P1).Perm (flattenSpec P2) := flattenSpec_perm P1 P2 hp
  have hkeysperm : (objKeys (flattenSpec P1)).Perm (objKeys (flattenSpec P2)) :=
    hfp.map Prod.fst
  have hnd2 : (objKeys (flattenSpec P2)).Nodup := hkeysperm.nodup_iff.mp hnd
  have hlookup : ∀ k, objGet (mergedQuery url P1) k = objGet (mergedQuery url P2) k := by
    intro k
    unfold mergedQuery
    rw [parseParamsObject_eq_objWrite, parseParamsObject_eq_objWrite]
    have hLk : objGet (flattenSpec P1) k = objGet (flattenSpec P2) k :=
      objGet_perm _ _ hfp hnd k
    cases hv : objGet (flattenSpec P1) k with
    | some v =>
        rw [objGet_objWrite_of_some _ _ _ _ hnd hv,
          objGet_objWrite_of_some _ _ _ _ hnd2 (hLk ▸ hv)]
    | none =>
        rw [objGet_objWrite_of_none _ _ _ hv, objGet_objWrite_of_none _ _ _ (hLk ▸ hv)]
  have hsorted := jsSort_sorted (objKeys (mergedQuery url P1))
  have hkeys : sortedQueryKeys url P1 = sortedQueryKeys url P2 := by
    unfold sortedQueryKeys
    apply jsSort_eq_of_perm
    have h1 : (objKeys (mergedQuery url P1)).Nodup := by
      unfold mergedQuery
      rw [parseParamsObject_eq_objWrite]
      exact nodup_objKeys_objWrite _ _ (parseUrlQuery_nodup url)
    have h2 : (objKeys (mergedQuery url P2)).Nodup := by
      unfold mergedQuery
      rw [parseParamsObject_eq_objWrite]
      exact nodup_objKeys_objWrite _ _ (parseUrlQuery_nodup url)
    rw [List.perm_ext_iff_of_nodup h1 h2]
    intro a
    unfold mergedQuery
    rw [parseParamsObject_eq_objWrite, parseParamsObject_eq_objWrite,
      mem_objKeys_objWrite, mem_objKeys_objWrite]
    have hmm : a ∈ objKeys (flattenSpec P1) ↔ a ∈ objKeys (flattenSpec P2) :=
      hkeysperm.mem_iff
    tauto
  refine ⟨?_, hsorted⟩
  unfold normalizeQueryString
  have hlen : P1.length = P2.length := hp.length_eq
  by_cases hguard : (url.data.all (fun c => c.toNat != 63) && P1.length == 0) = true
  · rw [if_pos hguard, if_pos (by rw [← hlen]; exact hguard)]
  · rw [if_neg hguard, if_neg (by rw [← hlen]; exact hguard)]
    have hqs : queryStringOf url P1 = queryStringOf url P2 := by
      unfold queryStringOf
      rw [hkeys]
      have hfeq : (fun (acc : String) k =>
          (if acc.length ≠ 0 then acc ++ "&" else acc) ++
            encodeKeyJs k ++ "=" ++
            encodeURIComponentStr (queryValToString (mergedQuery url P1) k)) =
          (fun (acc : String) k =>
          (if acc.length ≠ 0 then acc ++ "&" else acc) ++
            encodeKeyJs k ++ "=" ++
            encodeURIComponentStr (queryValToString (mergedQuery url P2) k)) := by
        funext acc k
        have : queryValToString (mergedQuery url P1) k =
            queryValToString (mergedQuery url P2) k := by
          unfold queryValToString
          rw [hlookup k]
        rw [this]
      rw [hfeq]
    rw [hqs]

/-- Witness for C1 at the flat example of the specification:
canonicalizing the mapping b maps to 2, a maps to 1 in either insertion
order gives the same string, with keys emitted in ascending order. -/
theorem c1_canonicalizer_order_independent_witness :
    normalizeQueryString "http://shop.test/x"
        [("b", JsVal.prim "2"), ("a", JsVal.prim "1")] =
      normalizeQueryString "http://shop.test/x"
        [("a", JsVal.prim "1"), ("b", JsVal.prim "2")] ∧
    List.Pairwise (fun a b => jsStrLe a b = true)
      (sortedQueryKeys "http://shop.test/x"
        [("b", JsVal.prim "2"), ("a", JsVal.prim "1")]) :=
  c1_canonicalizer_order_independent "http://shop.test/x"
    [("b", JsVal.prim "2"), ("a", JsVal.prim "1")]
    [("a", JsVal.prim "1"), ("b", JsVal.prim "2")]
    (List.Perm.swap _ _ _) (by decide)

/-- Claim C3: in canonicalized keys the two replace passes decode exactly
the percent-escapes of the brackets — the key serialization equals
per-character encoding in which the bracket characters stay literal and
every other character is percent-encoded as usual; values take plain
`encodeURIComponent`, as the concrete run shows: a bracket in a key stays
literal while a bracket in a value stays percent-encoded. -/
theorem c3_bracket_literal_keys :
    (∀ k : String, encodeKeyJs k = String.mk ((k.data.map encCharKeepBrackets).flatten)) ∧
    (∀ c : Char, c.toNat = 91 ∨ c.toNat = 93 → encCharKeepBrackets c = [c]) ∧
    (∀ c : Char, ¬ (c.toNat = 91 ∨ c.toNat = 93) → encCharKeepBrackets c = encChar c) ∧
    normalizeQueryString "http://x/p" [("a[b]", JsVal.prim "[")] = "http://x/p?a[b]=%5B" := by
  refine ⟨encodeKeyJs_keepBrackets, ?_, ?_, by decide⟩
  · intro c h
    simp [encCharKeepBrackets, h]
  · intro c h
    simp [encCharKeepBrackets, h]

/-- Witness for C3 at the bracket characters and at a letter. -/
theorem c3_bracket_literal_keys_witness :
    encCharKeepBrackets (Char.ofNat 91) = [Char.ofNat 91] ∧
    encCharKeepBrackets (Char.ofNat 120) = encChar (Char.ofNat 120) :=
  ⟨c3_bracket_literal_keys.2.1 _ (by decide),
    c3_bracket_literal_keys.2.2.1 _ (by decide)⟩

/-- Claim C6 as frozen fails on the code: the guard tests the params
object before flattening, so a nonempty mapping that flattens to zero
entries (an entry holding an empty nested object) slips past the early
return and gets a bare question mark appended. -/
theorem c6_counterexample :
    flattenSpec [("a", JsVal.obj [])] = [] ∧
    normalizeQueryString "http://shop.test/wp-json/wc/v3/products"
        [("a", JsVal.obj [])] ≠
      "http://shop.test/wp-json/wc/v3/products" :=
  ⟨rfl, by decide⟩

theorem parseUrlQuery_no_qmark (url : String) (hq : ∀ c ∈ url.data, c.toNat ≠ 63) :
    parseUrlQuery url = [] := by
  have hdrop : url.data.dropWhile (fun c => c.toNat != 63) = [] := by
    rw [List.dropWhile_eq_nil_iff]
    intro c hc
    simpa [bne_iff_ne] using hq c hc
  simp only [parseUrlQuery, hdrop]
  rfl

/-- Claim C6 (amended): on a URL with no query string, the canonicalizer
returns the URL unchanged exactly when the params object itself has zero
keys; a nonempty mapping whose flattening yields zero entries instead
returns the URL with a bare question mark appended. -/
theorem c6_zero_params_url_unchanged (url : String) (params : JsObj)
    (hq : ∀ c ∈ url.data, c.toNat ≠ 63) :
    (params = [] → normalizeQueryString url params = url) ∧
    (params ≠ [] → flattenSpec params = [] →
      normalizeQueryString url params = url ++ "?") := by
  have hall : url.data.all (fun c => c.toNat != 63) = true := by
    rw [List.all_eq_true]
    intro c hc
    simpa [bne_iff_ne] using hq c hc
  constructor
  · intro hp
    subst hp
    unfold normalizeQueryString
    rw [if_pos (by simp [hall])]
  · intro hp hflat
    unfold normalizeQueryString
    have hlen : ¬ params.length = 0 := by
      intro h
      exact hp (List.length_eq_zero.mp h)
    rw [if_neg (by simp [hlen])]
    have hmq : mergedQuery url params = [] := by
      unfold mergedQuery
      rw [parseParamsObject_eq_objWrite, hflat, parseUrlQuery_no_qmark url hq]
      rfl
    have hqs : queryStringOf url params = "" := by
      unfold queryStringOf sortedQueryKeys
      rw [hmq]
      rfl
    rw [hqs]
    have htake : url.data.takeWhile (fun c => c.toNat != 63) = url.data := by
      rw [List.takeWhile_eq_self_iff]
      intro c hc
      simpa [bne_iff_ne] using hq c hc
    rw [htake, stringMk_data]
    rw [String.append_empty]

/-- Witness for C6 at a concrete URL: the empty mapping leaves the URL
untouched, the mapping holding one empty nested object appends a bare
question mark. -/
theorem c6_zero_params_url_unchanged_witness :
    normalizeQueryString "http://shop.test/abc" [] = "http://shop.test/abc" ∧
    normalizeQueryString "http://shop.test/abc" [("a", JsVal.obj [])] =
      "http://shop.test/abc" ++ "?" :=
  ⟨(c6_zero_params_url_unchanged "http://shop.test/abc" [] (by decide)).1 rfl,
    (c6_zero_params_url_unchanged "http://shop.test/abc" [("a", JsVal.obj [])]
      (by decide)).2 (by simp) rfl⟩

/-- Claim C5: the URL builder joins base and prefix with exactly one
slash whether or not the base ends in one — a base without a trailing
slash builds the same URL as the same base with one appended — and the
concrete example of the specification holds: base http://shop.test/ with
default prefix and version, endpoint products and params per_page 5
yields the pre-sign URL http://shop.test/wp-json/wc/v3/products?per_page=5. -/
theorem c5_url_single_slash :
    (∀ (cfg : ClientConfig) (endpoint : String) (params : JsObj),
      jsEndsWithSlash cfg.url = false →
      getUrl cfg endpoint params =
        getUrl { cfg with url := cfg.url ++ "/" } endpoint params) ∧
    getUrl (setDefaultsOptions "1.0.2"
        { url := some "http://shop.test/", consumerKey := some "ck",
          consumerSecret := some "cs" }) "products"
      [("per_page", JsVal.prim "5")] =
      "http://shop.test/wp-json/wc/v3/products?per_page=5" := by
  constructor
  · intro cfg endpoint params h
    have h2 : jsEndsWithSlash (cfg.url ++ "/") = true := by
      unfold jsEndsWithSlash
      rw [String.data_append]
      rw [show ("/" : String).data = [Char.ofNat 47] from rfl]
      rw [List.getLast?_concat]
      rfl
    simp [getUrl, h, h2]
  · decide

/-- Witness for C5 at a base URL without a trailing slash. -/
theorem c5_url_single_slash_witness :
    getUrl (setDefaultsOptions "1.0.2"
        { url := some "http://shop.test", consumerKey := some "ck",
          consumerSecret := some "cs" }) "products" [] =
      getUrl { setDefaultsOptions "1.0.2"
        { url := some "http://shop.test", consumerKey := some "ck",
          consumerSecret := some "cs" } with
        url := (setDefaultsOptions "1.0.2"
          { url := some "http://shop.test", consumerKey := some "ck",
            consumerSecret := some "cs" }).url ++ "/" } "products" [] :=
  c5_url_single_slash.1 _ "products" [] (by decide)

/-- Claim C8 as frozen fails on the code: the port splice replaces the
first occurrence of the hostname string anywhere in the URL, and for base
http://t the first occurrence of the hostname t is inside the scheme, so
the port lands inside the word http instead of after the hostname. -/
theorem c8_counterexample :
    getUrl (setDefaultsOptions "1.0.2"
        { url := some "http://t", consumerKey := some "ck",
          consumerSecret := some "cs", port := some "8080" }) "products" [] =
      "ht:8080tp://t/wp-json/wc/v3/products" ∧
    getUrl (setDefaultsOptions "1.0.2"
        { url := some "http://t", consumerKey := some "ck",
          consumerSecret := some "cs", port := some "8080" }) "products" [] ≠
      "http://t:8080/wp-json/wc/v3/products" :=
  ⟨by decide, by decide⟩

theorem replFirst_cons (pat rep : List Char) (c : Char) (cs : List Char) :
    replFirst pat rep (c :: cs) =
      if listStarts pat (c :: cs) = true then rep ++ (c :: cs).drop pat.length
      else c :: replFirst pat rep cs := rfl

theorem replFirst_splice (pat rep : List Char) :
    ∀ (a b : List Char),
      (∀ i, i < a.length → listStarts pat ((a ++ pat ++ b).drop i) = false) →
      replFirst pat rep (a ++ pat ++ b) = a ++ rep ++ b := by
  intro a
  induction a with
  | nil =>
      intro b _
      simp only [List.nil_append]
      cases pat with
      | nil =>
          cases b with
          | nil => simp [replFirst, listStarts]
          | cons c cs => simp [replFirst, listStarts]
      | cons p ps =>
          show replFirst (p :: ps) rep (p :: (ps ++ b)) = rep ++ b
          have hst : listStarts (p :: ps) (p :: (ps ++ b)) = true :=
            listStarts_self_append (p :: ps) b
          have hdrop : List.drop (p :: ps).length (p :: (ps ++ b)) = b :=
            List.drop_left (p :: ps) b
          rw [replFirst_cons, if_pos hst, hdrop]
  | cons x a2 ih =>
      intro b hno
      have h0 : listStarts pat (x :: ((a2 ++ pat) ++ b)) = false := hno 0 (by simp)
      have hstep : replFirst pat rep (((x :: a2) ++ pat) ++ b) =
          x :: replFirst pat rep ((a2 ++ pat) ++ b) := by
        show replFirst pat rep (x :: ((a2 ++ pat) ++ b)) = _
        rw [replFirst_cons, if_neg (by rw [h0]; exact Bool.false_ne_true)]
      calc replFirst pat rep ((x :: a2) ++ pat ++ b)
          = x :: replFirst pat rep ((a2 ++ pat) ++ b) := hstep
        _ = x :: (a2 ++ rep ++ b) := by
            rw [ih b (fun i hi => hno (i + 1)
              (by simp only [List.length_cons]; omega))]
        _ = (x :: a2) ++ rep ++ b := rfl

/-- Claim C8 (amended): the port splice is a first-occurrence string
replacement — it places the port immediately after the hostname exactly
when the hostname string does not occur at an earlier position of the
assembled URL, as it does not for ordinary base URLs such as
https://shop.test, but not for every base URL. -/
theorem c8_port_splice_first_occurrence :
    (∀ (pat rep a b : List Char),
      (∀ i, i < a.length → listStarts pat ((a ++ pat ++ b).drop i) = false) →
      replFirst pat rep (a ++ pat ++ b) = a ++ rep ++ b) ∧
    getUrl (setDefaultsOptions "1.0.2"
        { url := some "https://shop.test", consumerKey := some "ck",
          consumerSecret := some "cs", port := some "8080" }) "products" [] =
      "https://shop.test:8080/wp-json/wc/v3/products" :=
  ⟨replFirst_splice, by decide⟩

/-- Witness for C8 at a concrete splice whose pattern occurs first at the
intended position. -/
theorem c8_port_splice_first_occurrence_witness :
    replFirst "host".data "host:1".data ("x://".data ++ "host".data ++ "/p".data) =
      "x://".data ++ "host:1".data ++ "/p".data :=
  c8_port_splice_first_occurrence.1 _ _ _ _ (by decide)

theorem objGet_cons (a : String) (v : JsVal) (rest : JsObj) (k : String) :
    objGet ((a, v) :: rest) k = if a = k then some v else objGet rest k := rfl

theorem mergeOverrideLast_empty (opts : AxiosOptions) :
    mergeOverrideLast opts emptyOverride = opts := rfl

theorem mergeOverrideFirst_empty (opts : AxiosOptions) :
    mergeOverrideFirst emptyOverride opts = opts := by
  obtain ⟨u, m, e, t, rt, h, p, au, d⟩ := opts
  cases au <;> cases d <;> rfl

theorem jsTruthy_getD_ne (o : Option String) (h : jsTruthy o = true) :
    o.getD "" ≠ "" := by
  cases o with
  | none => simp [jsTruthy] at h
  | some s =>
      simp only [jsTruthy, bne_iff_ne, ne_eq] at h
      intro he
      simp only [Option.getD_some] at he
      rw [he] at h
      simp at h

/-- Claim C9: construction fails synchronously with an Options Error
whose message names the missing option when url, consumerKey or
consumerSecret is absent (or empty — JavaScript treats both as missing),
checked in that order; and a successful construction stores a nonempty
base URL and credential pair, so no configuration error can arise later
(every post-construction operation of the embedding is a total function
with no error outcome). -/
theorem c9_constructor_validation :
    (∀ (cv : String) (o : Option RawOptions), jsTruthy (o.getD {}).url = false →
      construct cv o =
        Except.error { name := "Options Error", message := "url is required" }) ∧
    (∀ (cv : String) (o : Option RawOptions), jsTruthy (o.getD {}).url = true →
      jsTruthy (o.getD {}).consumerKey = false →
      construct cv o =
        Except.error { name := "Options Error", message := "consumerKey is required" }) ∧
    (∀ (cv : String) (o : Option RawOptions), jsTruthy (o.getD {}).url = true →
      jsTruthy (o.getD {}).consumerKey = true →
      jsTruthy (o.getD {}).consumerSecret = false →
      construct cv o =
        Except.error { name := "Options Error", message := "consumerSecret is required" }) ∧
    (∀ (cv : String) (o : Option RawOptions) (cfg : ClientConfig),
      construct cv o = Except.ok cfg →
      cfg.url ≠ "" ∧ cfg.consumerKey ≠ "" ∧ cfg.consumerSecret ≠ "") := by
  refine ⟨?_, ?_, ?_, ?_⟩
  · intro cv o h
    simp [construct, h]
  · intro cv o h1 h2
    simp [construct, h1, h2]
  · intro cv o h1 h2 h3
    simp [construct, h1, h2, h3]
  · intro cv o cfg h
    simp only [construct] at h
    split_ifs at h with h1 h2 h3
    all_goals first
      | exact Except.noConfusion h
      | · have hcfg := Except.ok.inj h
          subst hcfg
          simp only [Bool.not_eq_false] at h1 h2 h3
          exact ⟨jsTruthy_getD_ne _ h1, jsTruthy_getD_ne _ h2, jsTruthy_getD_ne _ h3⟩

/-- Witness for C9: constructing with no options at all fails on url;
constructing with only url and consumerKey fails on consumerSecret;
a full construction succeeds with nonempty stored credentials. -/
theorem c9_constructor_validation_witness :
    construct "1.0.2" none =
      Except.error { name := "Options Error", message := "url is required" } ∧
    construct "1.0.2" (some { url := some "http://shop.test", consumerKey := some "ck" }) =
      Except.error { name := "Options Error", message := "consumerSecret is required" } ∧
    (setDefaultsOptions "1.0.2"
        { url := some "http://shop.test", consumerKey := some "ck",
          consumerSecret := some "cs" }).consumerSecret ≠ "" :=
  ⟨c9_constructor_validation.1 "1.0.2" none rfl,
    c9_constructor_validation.2.2.1 "1.0.2"
      (some { url := some "http://shop.test", consumerKey := some "ck" }) rfl rfl rfl,
    (c9_constructor_validation.2.2.2 "1.0.2"
      (some { url := some "http://shop.test", consumerKey := some "ck",
              consumerSecret := some "cs" })
      (setDefaultsOptions "1.0.2"
        { url := some "http://shop.test", consumerKey := some "ck",
          consumerSecret := some "cs" }) rfl).2.2⟩

/-- Claim C2: per request the dispatched transport options follow the
authentication decision table — on HTTPS with queryStringAuth the
credentials travel as consumer_key/consumer_secret query parameters with
no Basic-auth object; on HTTPS without queryStringAuth they travel as
Basic-auth username/password with no credential query parameters; off
HTTPS the query parameters are exactly the OAuth-signed parameter set
(the authorize collaborator applied to the assembled URL and method).
Stated for default transport overrides and caller params that do not
themselves carry credential keys, and for both dispatcher versions. -/
theorem c2_auth_mode_selection (cfg : ClientConfig) (authorize : String → String → JsObj)
    (method endpoint : String) (data : Option String) (params : JsObj)
    (hov : cfg.axiosConfig = emptyOverride)
    (hck : objGet params "consumer_key" = none)
    (hcs : objGet params "consumer_secret" = none) :
    ∀ opts : AxiosOptions,
      opts = requestOptionsV1 cfg authorize method endpoint data params ∨
      opts = requestOptionsV2 cfg authorize method endpoint data params →
      (cfg.isHttps = true → cfg.queryStringAuth = true →
        opts.auth = none ∧ ∃ q, opts.params = some q ∧
          objGet q "consumer_key" = some (JsVal.prim cfg.consumerKey) ∧
          objGet q "consumer_secret" = some (JsVal.prim cfg.consumerSecret)) ∧
      (cfg.isHttps = true → cfg.queryStringAuth = false →
        opts.auth = some (cfg.consumerKey, cfg.consumerSecret) ∧
        ∃ q, opts.params = some q ∧ objGet q "consumer_key" = none ∧
          objGet q "consumer_secret" = none) ∧
      (cfg.isHttps = false →
        opts.params = some (authorize (getUrl cfg endpoint params) method) ∧
        opts.auth = none) := by
  intro opts hopts
  have hred : opts = computedOptions cfg authorize method endpoint data params := by
    rcases hopts with rfl | rfl
    · unfold requestOptionsV1
      rw [hov, mergeOverrideLast_empty]
    · unfold requestOptionsV2
      rw [hov, mergeOverrideFirst_empty]
  subst hred
  refine ⟨?_, ?_, ?_⟩
  · intro hH hQ
    constructor
    · cases data <;> simp [computedOptions, hH, hQ]
    · refine ⟨objWrite
        [("consumer_key", JsVal.prim cfg.consumerKey),
          ("consumer_secret", JsVal.prim cfg.consumerSecret)] params, ?_, ?_, ?_⟩
      · cases data <;> simp [computedOptions, hH, hQ]
      · rw [objGet_objWrite_of_none _ _ _ hck]
        rw [objGet_cons, if_pos rfl]
      · rw [objGet_objWrite_of_none _ _ _ hcs]
        rw [objGet_cons, if_neg (by decide), objGet_cons, if_pos rfl]
  · intro hH hQ
    constructor
    · cases data <;> simp [computedOptions, hH, hQ]
    · refine ⟨objWrite [] params, ?_, ?_, ?_⟩
      · cases data <;> simp [computedOptions, hH, hQ]
      · rw [objGet_objWrite_of_none _ _ _ hck]
        rfl
      · rw [objGet_objWrite_of_none _ _ _ hcs]
        rfl
  · intro hH
    constructor
    · cases data <;> simp [computedOptions, hH]
    · cases data <;> simp [computedOptions, hH]

/-- Witness for C2 on a concrete HTTPS client with query-string auth. -/
theorem c2_auth_mode_selection_witness :
    (requestOptionsV1 (setDefaultsOptions "1.0.2"
      { url := some "https://shop.test", consumerKey := some "ck",
        consumerSecret := some "cs", queryStringAuth := some true })
      (fun _ _ => []) "get" "products" none []).auth = none ∧
    ∃ q, (requestOptionsV1 (setDefaultsOptions "1.0.2"
      { url := some "https://shop.test", consumerKey := some "ck",
        consumerSecret := some "cs", queryStringAuth := some true })
      (fun _ _ => []) "get" "products" none []).params = some q ∧
      objGet q "consumer_key" = some (JsVal.prim (setDefaultsOptions "1.0.2"
        { url := some "https://shop.test", consumerKey := some "ck",
          consumerSecret := some "cs", queryStringAuth := some true }).consumerKey) ∧
      objGet q "consumer_secret" = some (JsVal.prim (setDefaultsOptions "1.0.2"
        { url := some "https://shop.test", consumerKey := some "ck",
          consumerSecret := some "cs", queryStringAuth := some true }).consumerSecret) :=
  (c2_auth_mode_selection (setDefaultsOptions "1.0.2"
      { url := some "https://shop.test", consumerKey := some "ck",
        consumerSecret := some "cs", queryStringAuth := some true })
    (fun _ _ => []) "get" "products" none [] rfl rfl rfl
    _ (Or.inl rfl)).1 (by decide) rfl

/-- Claim C10: on an HTTPS client with query-string auth, the caller's
per-request params are spread over the credential parameters with higher
precedence — any key the caller supplies (consumer_key and
consumer_secret included) reaches the dispatched query parameters with
the caller's value, silently replacing the configured credential. -/
theorem c10_caller_params_override_credentials (cfg : ClientConfig)
    (authorize : String → String → JsObj) (method endpoint : String)
    (data : Option String) (params : JsObj) (k : String) (v : JsVal)
    (hov : cfg.axiosConfig = emptyOverride)
    (hH : cfg.isHttps = true) (hQ : cfg.queryStringAuth = true)
    (hnd : (objKeys params).Nodup) (hk : objGet params k = some v) :
    (∃ q, (requestOptionsV1 cfg authorize method endpoint data params).params = some q ∧
      objGet q k = some v) ∧
    (∃ q, (requestOptionsV2 cfg authorize method endpoint data params).params = some q ∧
      objGet q k = some v) := by
  have h1 : requestOptionsV1 cfg authorize method endpoint data params =
      computedOptions cfg authorize method endpoint data params := by
    unfold requestOptionsV1
    rw [hov, mergeOverrideLast_empty]
  have h2 : requestOptionsV2 cfg authorize method endpoint data params =
      computedOptions cfg authorize method endpoint data params := by
    unfold requestOptionsV2
    rw [hov, mergeOverrideFirst_empty]
  have hget : objGet (objWrite
      [("consumer_key", JsVal.prim cfg.consumerKey),
        ("consumer_secret", JsVal.prim cfg.consumerSecret)] params) k = some v :=
    objGet_objWrite_of_some _ _ _ _ hnd hk
  have hparams : (computedOptions cfg authorize method endpoint data params).params =
      some (objWrite
        [("consumer_key", JsVal.prim cfg.consumerKey),
          ("consumer_secret", JsVal.prim cfg.consumerSecret)] params) := by
    cases data <;> simp [computedOptions, hH, hQ]
  exact ⟨⟨_, by rw [h1, hparams], hget⟩, ⟨_, by rw [h2, hparams], hget⟩⟩

/-- Witness for C10: a caller-supplied consumer_key replaces the
configured credential in the dispatched query parameters. -/
theorem c10_caller_params_override_credentials_witness :
    ∃ q, (requestOptionsV1 (setDefaultsOptions "1.0.2"
        { url := some "https://shop.test", consumerKey := some "ck",
          consumerSecret := some "cs", queryStringAuth := some true })
      (fun _ _ => []) "get" "products" none
      [("consumer_key", JsVal.prim "caller-key")]).params = some q ∧
      objGet q "consumer_key" = some (JsVal.prim "caller-key") :=
  (c10_caller_params_override_credentials (setDefaultsOptions "1.0.2"
      { url := some "https://shop.test", consumerKey := some "ck",
        consumerSecret := some "cs", queryStringAuth := some true })
    (fun _ _ => []) "get" "products" none
    [("consumer_key", JsVal.prim "caller-key")] "consumer_key"
    (JsVal.prim "caller-key") rfl rfl rfl (by decide) rfl).1

/-- Claim C7 as frozen fails on the code of src/unnamed/part_000: its
merge spreads the computed options after the configured overrides, so a
transport override for a key the dispatcher always sets (here url) does
not take precedence in the dispatched configuration. -/
theorem c7_counterexample :
    (setDefaultsOptions "1.0.4"
        { url := some "https://shop.test", consumerKey := some "ck",
          consumerSecret := some "cs",
          axiosConfig := some { url := some "http://override.test" } }).axiosConfig.url =
      some "http://override.test" ∧
    (requestOptionsV2 (setDefaultsOptions "1.0.4"
        { url := some "https://shop.test", consumerKey := some "ck",
          consumerSecret := some "cs",
          axiosConfig := some { url := some "http://override.test" } })
      (fun _ _ => []) "get" "products" none []).url ≠ "http://override.test" :=
  ⟨rfl, by decide⟩

/-- Claim C7 (amended): the dispatched configuration is the computed
options merged with the configured transport overrides, but the override
wins only in the v1.0.2 dispatcher (overrides spread last: every present
override key takes precedence); in the v1.0.4 dispatcher the spread order
is reversed, so the computed options win for every key they always set
(url, method, responseEncoding, timeout, responseType, headers, params)
and an override can only fill auth or data when the computed options left
that key unset. -/
theorem c7_transport_override_precedence :
    (∀ (opts : AxiosOptions) (ov : AxiosOverride),
      (∀ u, ov.url = some u → (mergeOverrideLast opts ov).url = u) ∧
      (∀ m, ov.method = some m → (mergeOverrideLast opts ov).method = m) ∧
      (∀ e, ov.responseEncoding = some e →
        (mergeOverrideLast opts ov).responseEncoding = e) ∧
      (∀ t, ov.timeout = some t → (mergeOverrideLast opts ov).timeout = t) ∧
      (∀ r, ov.responseType = some r → (mergeOverrideLast opts ov).responseType = r) ∧
      (∀ h, ov.headers = some h → (mergeOverrideLast opts ov).headers = h) ∧
      (∀ p, ov.params = some p → (mergeOverrideLast opts ov).params = p) ∧
      (∀ a, ov.auth = some a → (mergeOverrideLast opts ov).auth = a) ∧
      (∀ d, ov.data = some d → (mergeOverrideLast opts ov).data = d)) ∧
    (∀ (opts : AxiosOptions) (ov : AxiosOverride),
      (mergeOverrideFirst ov opts).url = opts.url ∧
      (mergeOverrideFirst ov opts).method = opts.method ∧
      (mergeOverrideFirst ov opts).responseEncoding = opts.responseEncoding ∧
      (mergeOverrideFirst ov opts).timeout = opts.timeout ∧
      (mergeOverrideFirst ov opts).responseType = opts.responseType ∧
      (mergeOverrideFirst ov opts).headers = opts.headers ∧
      (mergeOverrideFirst ov opts).params = opts.params ∧
      (opts.auth = none → (mergeOverrideFirst ov opts).auth = ov.auth.getD none) ∧
      (∀ a, opts.auth = some a → (mergeOverrideFirst ov opts).auth = some a) ∧
      (opts.data = none → (mergeOverrideFirst ov opts).data = ov.data.getD none) ∧
      (∀ d, opts.data = some d → (mergeOverrideFirst ov opts).data = some d)) ∧
    (∀ (cfg : ClientConfig) (authorize : String → String → JsObj)
        (method endpoint : String) (data : Option String) (params : JsObj),
      requestOptionsV1 cfg authorize method endpoint data params =
        mergeOverrideLast (computedOptions cfg authorize method endpoint data params)
          cfg.axiosConfig ∧
      requestOptionsV2 cfg authorize method endpoint data params =
        mergeOverrideFirst cfg.axiosConfig
          (computedOptions cfg authorize method endpoint data params)) := by
  refine ⟨?_, ?_, ?_⟩
  · intro opts ov
    refine ⟨?_, ?_, ?_, ?_, ?_, ?_, ?_, ?_, ?_⟩ <;>
      (intro x hx; simp [mergeOverrideLast, hx])
  · intro opts ov
    refine ⟨rfl, rfl, rfl, rfl, rfl, rfl, rfl, ?_, ?_, ?_, ?_⟩
    · intro hx
      simp [mergeOverrideFirst, hx]
    · intro a hx
      simp [mergeOverrideFirst, hx]
    · intro hx
      simp [mergeOverrideFirst, hx]
    · intro d hx
      simp [mergeOverrideFirst, hx]
  · intro cfg authorize method endpoint data params
    exact ⟨rfl, rfl⟩

/-- Witness for C7: a present url override wins under the v1.0.2 merge;
under the v1.0.4 merge the computed url survives and an auth override
fills the unset auth key. -/
theorem c7_transport_override_precedence_witness :
    (mergeOverrideLast
      { url := "http://a", method := "get", responseEncoding := "utf8",
        timeout := none, responseType := "json", headers := [], params := none,
        auth := none, data := none }
      { url := some "http://b" }).url = "http://b" ∧
    (mergeOverrideFirst { url := some "http://b" }
      { url := "http://a", method := "get", responseEncoding := "utf8",
        timeout := none, responseType := "json", headers := [], params := none,
        auth := none, data := none }).url = "http://a" :=
  ⟨(c7_transport_override_precedence.1
      { url := "http://a", method := "get", responseEncoding := "utf8",
        timeout := none, responseType := "json", headers := [], params := none,
        auth := none, data := none }
      { url := some "http://b" }).1 "http://b" rfl,
    (c7_transport_override_precedence.2.1
      { url := "http://a", method := "get", responseEncoding := "utf8",
        timeout := none, responseType := "json", headers := [], params := none,
        auth := none, data := none }
      { url := some "http://b" }).1⟩
